import Mathlib

/-!
Verification development for the xxzip archiving tool.

The definitions below are a shallow embedding of the Rust sources:
`src/compress.rs` (directory compression, the adaptive buffered copier
`read_and_write_file`, the memory-mapped large-file fast path),
`src/extract.rs` (extraction with path sanitisation, parent-directory
creation, the overwrite policy and progress accounting) and the level
handling of the `compress` function in `src/main.rs`.  File contents are
byte lists, filesystem paths are lists of name segments, and the
filesystem is an association list of files plus a list of directories.
-/

namespace XXZip

/-- A path segment (one component of a relative path). -/
abbrev Seg := String

/-- A relative path, as its list of components. -/
abbrev RPath := List Seg

/-- File contents, as a list of bytes. -/
abbrev Bytes := List Nat

/-- A normal path component: not empty, not `.` and not `..`.  The component
representation of entry names keeps separators out of segments, so these are
the only special components. -/
def isNormalSeg (s : Seg) : Bool :=
  !(s = "") && !(s = ".") && !(s = "..")

/-! ## Adaptive stream copier (src/compress.rs `read_and_write_file`,
src/extract.rs `extract_file`)

Both functions implement the same loop: pick an initial buffer from the
file-size class, read up to the buffer size, write the chunk, and after a
read that filled the buffer completely double the buffer up to a 2 MiB
ceiling. -/

/-- Buffer ceiling: `MAX_BUFFER_SIZE` is 2 MiB in both copies of the loop. -/
def MAX_BUFFER_SIZE : Nat := 2 * 1024 * 1024

/-- Initial buffer size: 32 KiB below 1 MiB of total size, else 64 KiB. -/
def initialBufferSize (fileSize : Nat) : Nat :=
  if fileSize < 1024 * 1024 then 32 * 1024 else 64 * 1024

/-- Buffer adjustment after one read: when the buffer is below the ceiling and
the read filled it completely, double it, capped at the ceiling; otherwise it
is left as is. -/
def nextBufSize (bufLen bytesRead : Nat) : Nat :=
  if bufLen < MAX_BUFFER_SIZE ∧ bytesRead = bufLen then
    min (2 * bufLen) MAX_BUFFER_SIZE
  else bufLen

/-- The chunked copy loop: read at most `buf` bytes from the remaining input,
write them, adjust the buffer, repeat until a read returns 0 bytes.  The
first argument is fuel bounding the number of iterations; with fuel above the
input length the loop consumes the whole input. -/
def copyLoop : Nat → Nat → Bytes → Bytes
  | 0, _, _ => []
  | _ + 1, _, [] => []
  | fuel + 1, buf, x :: rest =>
      let n := min buf (x :: rest).length
      if n = 0 then []
      else (x :: rest).take n ++ copyLoop fuel (nextBufSize buf n) ((x :: rest).drop n)

/-- The adaptive copy of a whole stream, as both `read_and_write_file` and
`extract_file` perform it (`fileSize` is the size used to pick the initial
buffer; the data itself is what the reads return). -/
def adaptiveCopy (fileSize : Nat) (data : Bytes) : Bytes :=
  copyLoop (data.length + 1) (initialBufferSize fileSize) data

theorem le_nextBufSize (b r : Nat) : b ≤ nextBufSize b r := by
  unfold nextBufSize
  split
  · next h => exact le_min (Nat.le_mul_of_pos_left b (by norm_num)) (Nat.le_of_lt h.1)
  · exact le_rfl

theorem nextBufSize_le_max (b r : Nat) (h : b ≤ MAX_BUFFER_SIZE) :
    nextBufSize b r ≤ MAX_BUFFER_SIZE := by
  unfold nextBufSize
  split
  · exact min_le_right _ _
  · exact h

theorem initialBufferSize_pos (s : Nat) : 0 < initialBufferSize s := by
  unfold initialBufferSize
  split <;> norm_num

theorem copyLoop_eq (fuel : Nat) : ∀ (buf : Nat) (data : Bytes),
    data.length < fuel → 0 < buf → copyLoop fuel buf data = data := by
  induction fuel with
  | zero => intro buf data h _; omega
  | succ f ih =>
      intro buf data h hbuf
      match data with
      | [] => rfl
      | x :: rest =>
          have hlen : 0 < (x :: rest).length := by simp
          have hn : 0 < min buf (x :: rest).length := lt_min hbuf hlen
          unfold copyLoop
          simp only [hn.ne', if_false]
          have hdrop : ((x :: rest).drop (min buf (x :: rest).length)).length < f := by
            rw [List.length_drop]
            omega
          have hnext : 0 < nextBufSize buf (min buf (x :: rest).length) :=
            lt_of_lt_of_le hbuf (le_nextBufSize _ _)
          rw [ih _ _ hdrop hnext, List.take_append_drop]

theorem adaptiveCopy_eq (fileSize : Nat) (data : Bytes) :
    adaptiveCopy fileSize data = data :=
  copyLoop_eq _ _ _ (Nat.lt_succ_self _) (initialBufferSize_pos fileSize)

/-! ## Large-file write path (src/compress.rs lines 90-114, 174-195)

A file larger than 100 MiB is memory-mapped and written in one pass; if the
mapping fails the code logs a warning and falls back to the chunked copy.
The mapping outcome is an oracle argument; the function is total — a failed
mapping is never an error of the compression job. -/

/-- The memory-map threshold of src/compress.rs: 100 MiB. -/
def MMAP_THRESHOLD : Nat := 100 * 1024 * 1024

/-- Outcome of writing one source file into the archive: the bytes that were
written and whether the memory-mapped fast path produced them. -/
structure WriteOut where
  bytes : Bytes
  usedMmap : Bool
  deriving Repr, DecidableEq

/-- Write one source file's bytes into the archive, as `compress_directory`
does: memory-map above the threshold (falling back to the chunked copy when
the mapping fails), chunked copy otherwise. -/
def writeFileData (fileSize : Nat) (data : Bytes) (mmapOk : Bool) : WriteOut :=
  if MMAP_THRESHOLD < fileSize then
    if mmapOk then ⟨data, true⟩
    else ⟨adaptiveCopy fileSize data, false⟩
  else ⟨adaptiveCopy fileSize data, false⟩

theorem writeFileData_bytes (fileSize : Nat) (data : Bytes) (mmapOk : Bool) :
    (writeFileData fileSize data mmapOk).bytes = data := by
  unfold writeFileData
  split <;> [skip; simp [adaptiveCopy_eq]]
  split <;> simp [adaptiveCopy_eq]

/-! ## Archive entries and source trees -/

/-- One archive entry: the entry name as a component list, whether it is a
directory entry (a name ending in a separator in the container), and the
entry's (uncompressed) bytes.  The declared uncompressed size of an entry is
`data.length`. -/
structure ZipEntry where
  name : RPath
  isDir : Bool
  data : Bytes
  deriving Repr, DecidableEq

/-- One filesystem object found by the directory walk, with its path relative
to the source directory: a regular file with contents, or a directory. -/
inductive FsNode where
  | file (relPath : RPath) (data : Bytes)
  | dir (relPath : RPath)
  deriving Repr, DecidableEq

/-- A source directory tree: the directory's own name and the walk of its
contents (paths relative to the source directory, in walk order). -/
structure SrcTree where
  name : Seg
  nodes : List FsNode
  deriving Repr, DecidableEq

/-- The regular files of a walk node. -/
def fsNodeFile? : FsNode → Option (RPath × Bytes)
  | .file p d => some (p, d)
  | .dir _ => none

/-- Does a walk node satisfy a segment predicate on its file path? -/
def nodeSegsOk : FsNode → Bool
  | .file p _ => p.all isNormalSeg
  | .dir _ => true

/-! ## Compression (src/compress.rs `compress_directory`)

The walk visits every node under the source directory; for each regular file
the entry name is the path stripped of the source's parent directory — the
source directory's own name followed by the file's relative path — and the
file bytes are written through `writeFileData`.  Directories produce no
entry. -/

/-- Compress the nodes of a source directory named `dirName`: one entry per
regular file, named relative to the source's parent directory.  `mmapOk`
tells, per file, whether a memory mapping of it would succeed. -/
def compressNodes (dirName : Seg) (nodes : List FsNode) (mmapOk : RPath → Bool) :
    List ZipEntry :=
  nodes.filterMap fun n =>
    match n with
    | .dir _ => none
    | .file p d => some ⟨dirName :: p, false, (writeFileData d.length d (mmapOk p)).bytes⟩

/-- Compress a source directory tree (the error-free run of
`compress_directory`). -/
def compressDir (t : SrcTree) (mmapOk : RPath → Bool) : List ZipEntry :=
  compressNodes t.name t.nodes mmapOk

theorem compressNodes_eq (dirName : Seg) (nodes : List FsNode) (mmapOk : RPath → Bool) :
    compressNodes dirName nodes mmapOk
      = (nodes.filterMap fsNodeFile?).map (fun f => ⟨dirName :: f.1, false, f.2⟩) := by
  induction nodes with
  | nil => rfl
  | cons n rest ih =>
      cases n with
      | file p d =>
          simp only [compressNodes, List.filterMap_cons, fsNodeFile?, writeFileData_bytes,
            List.map_cons] at ih ⊢
          exact congrArg _ ih
      | dir p =>
          simp only [compressNodes, List.filterMap_cons, fsNodeFile?, writeFileData_bytes] at ih ⊢
          exact ih

/-! ## Extraction (src/extract.rs `extract`)

The filesystem state is an association list of files, a list of existing
directories and the progress counter.  Each entry is sanitised with the zip
codec's `mangled_name`, parent directories are created, then the overwrite
policy is applied, and the entry is either skipped (progress still advanced
by its full size), created as a directory, or streamed to disk through the
adaptive copier. -/

/-- Modelled from the spec: the zip codec's `mangled_name` sanitisation used
at src/extract.rs line 49 lives in the external zip crate.  Per the spec it
rewrites the entry name to stay inside the output directory: of the parsed
components only normal ones are kept (root, `.`, `..` and empty components
are dropped). -/
def mangledName (name : RPath) : RPath :=
  name.filter isNormalSeg

/-- The filesystem state extraction acts on. -/
structure FsState where
  files : List (RPath × Bytes)
  dirs : List RPath
  progress : Nat
  deriving Repr, DecidableEq

/-- Look a file up by path. -/
def lookupFile : List (RPath × Bytes) → RPath → Option Bytes
  | [], _ => none
  | (q, d) :: fs, p => if q = p then some d else lookupFile fs p

/-- Create or overwrite a file (`File::create`). -/
def setFile : List (RPath × Bytes) → RPath → Bytes → List (RPath × Bytes)
  | [], p, d => [(p, d)]
  | (q, e) :: fs, p, d => if q = p then (q, d) :: fs else (q, e) :: setFile fs p d

/-- Record one directory as existing, if it is not already there. -/
def insDir (acc : List RPath) (q : RPath) : List RPath :=
  if q ∈ acc then acc else acc ++ [q]

/-- Create a directory and all of its missing ancestors (`create_dir_all`). -/
def addDirAll (ds : List RPath) (p : RPath) : List RPath :=
  (p.inits.filter (fun q => !q.isEmpty)).foldl insDir ds

/-- Does a path exist, as a file or as a directory (`Path::exists`)? -/
def pathExists (st : FsState) (p : RPath) : Bool :=
  (lookupFile st.files p).isSome || p ∈ st.dirs

/-- The target path of an entry: the output directory joined with the
sanitised entry name. -/
def outPathOf (outDir : RPath) (e : ZipEntry) : RPath :=
  outDir ++ mangledName e.name

/-- First stage of processing an entry (src/extract.rs lines 51-55): create
the target's parent directory chain when the parent does not exist yet.  This
runs before the overwrite policy is consulted. -/
def mkParents (outDir : RPath) (st : FsState) (e : ZipEntry) : FsState :=
  if pathExists st (outPathOf outDir e).dropLast then st
  else { st with dirs := addDirAll st.dirs (outPathOf outDir e).dropLast }

/-- Process one archive entry, in the order of src/extract.rs lines 47-74:
sanitise the name, create the missing parent directories, then skip the entry
when overwriting is off and the target exists (still advancing progress by
the entry's full size), else create the directory or extract the file
through the adaptive copier. -/
def processEntry (overwrite : Bool) (outDir : RPath) (st : FsState) (e : ZipEntry) :
    FsState :=
  let outpath := outPathOf outDir e
  let st1 := mkParents outDir st e
  if !overwrite && pathExists st1 outpath then
    { st1 with progress := st1.progress + e.data.length }
  else if e.isDir then
    { st1 with dirs := addDirAll st1.dirs outpath }
  else
    let written := adaptiveCopy e.data.length e.data
    { st1 with
        files := setFile st1.files outpath written
        progress := st1.progress + written.length }

/-- The declared total uncompressed size of an archive, as the sizing pass of
src/extract.rs lines 36-41 computes it. -/
def archiveTotalSize (archive : List ZipEntry) : Nat :=
  (archive.map (fun e => e.data.length)).sum

/-- Run extraction: create the output directory when it does not exist, then
process each entry in container order. -/
def extractRun (overwrite : Bool) (outDir : RPath) (st0 : FsState)
    (archive : List ZipEntry) : FsState :=
  let stInit :=
    if pathExists st0 outDir then st0
    else { st0 with dirs := addDirAll st0.dirs outDir }
  archive.foldl (processEntry overwrite outDir) stInit

/-! ## Association-list and directory-set lemmas -/

theorem lookupFile_setFile (fs : List (RPath × Bytes)) (k p : RPath) (d : Bytes) :
    lookupFile (setFile fs k d) p = if k = p then some d else lookupFile fs p := by
  induction fs with
  | nil => rfl
  | cons qe fs ih =>
      obtain ⟨q, e⟩ := qe
      by_cases hq : q = k
      · subst hq
        by_cases hp : q = p <;> simp [setFile, lookupFile, hp]
      · by_cases hp : q = p
        · subst hp
          have hk : ¬ k = q := fun h => hq h.symm
          simp [setFile, lookupFile, hq, hk]
        · simp [setFile, lookupFile, hq, hp, ih]

theorem setFile_of_lookup_none (fs : List (RPath × Bytes)) (k : RPath) (d : Bytes) :
    lookupFile fs k = none → setFile fs k d = fs ++ [(k, d)] := by
  induction fs with
  | nil => intro _; rfl
  | cons qe fs ih =>
      obtain ⟨q, e⟩ := qe
      intro h
      by_cases hq : q = k
      · subst hq
        simp [lookupFile] at h
      · simp only [lookupFile, if_neg hq] at h
        simp [setFile, if_neg hq, ih h]

theorem lookupFile_append_of_none (fs gs : List (RPath × Bytes)) (p : RPath) :
    lookupFile fs p = none → lookupFile (fs ++ gs) p = lookupFile gs p := by
  induction fs with
  | nil => intro _; rfl
  | cons qe fs ih =>
      obtain ⟨q, e⟩ := qe
      intro h
      by_cases hq : q = p
      · subst hq
        simp [lookupFile] at h
      · simp only [lookupFile, if_neg hq] at h
        simpa [lookupFile, if_neg hq] using ih h

theorem mem_insDir_self (acc : List RPath) (q : RPath) : q ∈ insDir acc q := by
  unfold insDir
  split
  · assumption
  · simp

theorem insDir_mono (acc : List RPath) (q r : RPath) (h : r ∈ acc) : r ∈ insDir acc q := by
  unfold insDir
  split
  · exact h
  · simp [h]

theorem mem_insDir (acc : List RPath) (q r : RPath) (h : r ∈ insDir acc q) :
    r ∈ acc ∨ r = q := by
  unfold insDir at h
  split at h
  · exact Or.inl h
  · simpa using h

theorem foldl_insDir_mono (l : List RPath) : ∀ (acc : List RPath) (r : RPath),
    r ∈ acc → r ∈ l.foldl insDir acc := by
  induction l with
  | nil => intro acc r h; exact h
  | cons q l ih => intro acc r h; exact ih _ _ (insDir_mono _ _ _ h)

theorem mem_foldl_insDir_of_mem (l : List RPath) : ∀ (acc : List RPath) (q : RPath),
    q ∈ l → q ∈ l.foldl insDir acc := by
  induction l with
  | nil => intro acc q h; cases h
  | cons x l ih =>
      intro acc q h
      rw [List.foldl_cons]
      rcases List.mem_cons.mp h with h | h
      · subst h
        exact foldl_insDir_mono _ _ _ (mem_insDir_self _ _)
      · exact ih _ _ h

theorem mem_of_foldl_insDir (l : List RPath) : ∀ (acc : List RPath) (r : RPath),
    r ∈ l.foldl insDir acc → r ∈ acc ∨ r ∈ l := by
  induction l with
  | nil => intro acc r h; exact Or.inl h
  | cons q l ih =>
      intro acc r h
      rw [List.foldl_cons] at h
      rcases ih _ _ h with h' | h'
      · rcases mem_insDir _ _ _ h' with h'' | h''
        · exact Or.inl h''
        · exact Or.inr (by simp [h''])
      · exact Or.inr (by simp [h'])

theorem addDirAll_mono (ds : List RPath) (p r : RPath) (h : r ∈ ds) :
    r ∈ addDirAll ds p :=
  foldl_insDir_mono _ _ _ h

theorem mem_addDirAll_self (ds : List RPath) (p : RPath) (h : p ≠ []) :
    p ∈ addDirAll ds p := by
  apply mem_foldl_insDir_of_mem
  refine List.mem_filter.mpr ⟨?_, by simpa [List.isEmpty_iff] using h⟩
  exact (List.mem_inits _ _).mpr ⟨[], by simp⟩

theorem mem_of_addDirAll (ds : List RPath) (p r : RPath) (h : r ∈ addDirAll ds p) :
    r ∈ ds ∨ r <+: p := by
  rcases mem_of_foldl_insDir _ _ _ h with h' | h'
  · exact Or.inl h'
  · exact Or.inr ((List.mem_inits _ _).mp (List.mem_filter.mp h').1)

/-! ## Branch and monotonicity lemmas for extraction -/

theorem mkParents_files (outDir : RPath) (st : FsState) (e : ZipEntry) :
    (mkParents outDir st e).files = st.files := by
  unfold mkParents
  split <;> rfl

theorem mkParents_progress (outDir : RPath) (st : FsState) (e : ZipEntry) :
    (mkParents outDir st e).progress = st.progress := by
  unfold mkParents
  split <;> rfl

theorem mkParents_dirs_mono (outDir : RPath) (st : FsState) (e : ZipEntry) (r : RPath)
    (h : r ∈ st.dirs) : r ∈ (mkParents outDir st e).dirs := by
  unfold mkParents
  split
  · exact h
  · exact addDirAll_mono _ _ _ h

theorem pathExists_mkParents (outDir : RPath) (st : FsState) (e : ZipEntry) (p : RPath)
    (h : pathExists st p = true) : pathExists (mkParents outDir st e) p = true := by
  unfold pathExists at h ⊢
  rw [mkParents_files]
  rcases Bool.or_eq_true_iff.mp h with h' | h'
  · exact Bool.or_eq_true_iff.mpr (Or.inl h')
  · exact Bool.or_eq_true_iff.mpr (Or.inr (by
      exact decide_eq_true (mkParents_dirs_mono _ _ _ _ (of_decide_eq_true h'))))

theorem processEntry_skip (outDir : RPath) (st : FsState) (e : ZipEntry)
    (h : pathExists (mkParents outDir st e) (outPathOf outDir e) = true) :
    processEntry false outDir st e =
      { mkParents outDir st e with
          progress := (mkParents outDir st e).progress + e.data.length } := by
  unfold processEntry
  simp [h]

theorem processEntry_write (overwrite : Bool) (outDir : RPath) (st : FsState) (e : ZipEntry)
    (hskip : (!overwrite && pathExists (mkParents outDir st e) (outPathOf outDir e)) = false)
    (hfile : e.isDir = false) :
    processEntry overwrite outDir st e =
      { mkParents outDir st e with
          files := setFile (mkParents outDir st e).files (outPathOf outDir e)
            (adaptiveCopy e.data.length e.data)
          progress := (mkParents outDir st e).progress
            + (adaptiveCopy e.data.length e.data).length } := by
  unfold processEntry
  simp [hskip, hfile]

theorem processEntry_mkdir (overwrite : Bool) (outDir : RPath) (st : FsState) (e : ZipEntry)
    (hskip : (!overwrite && pathExists (mkParents outDir st e) (outPathOf outDir e)) = false)
    (hdir : e.isDir = true) :
    processEntry overwrite outDir st e =
      { mkParents outDir st e with
          dirs := addDirAll (mkParents outDir st e).dirs (outPathOf outDir e) } := by
  unfold processEntry
  simp [hskip, hdir]

theorem processEntry_skip_general (overwrite : Bool) (outDir : RPath) (st : FsState)
    (e : ZipEntry)
    (hsk : (!overwrite && pathExists (mkParents outDir st e) (outPathOf outDir e)) = true) :
    processEntry overwrite outDir st e =
      { mkParents outDir st e with
          progress := (mkParents outDir st e).progress + e.data.length } := by
  unfold processEntry
  simp [hsk]

theorem pathExists_processEntry (overwrite : Bool) (outDir : RPath) (st : FsState)
    (e : ZipEntry) (p : RPath) (h : pathExists st p = true) :
    pathExists (processEntry overwrite outDir st e) p = true := by
  have h1 := pathExists_mkParents outDir st e p h
  by_cases hsk : (!overwrite && pathExists (mkParents outDir st e) (outPathOf outDir e)) = true
  · rw [processEntry_skip_general overwrite outDir st e hsk]
    exact h1
  · by_cases hdir : e.isDir = true
    · rw [processEntry_mkdir overwrite outDir st e (by simpa using hsk) hdir]
      unfold pathExists at h1 ⊢
      rcases Bool.or_eq_true_iff.mp h1 with h' | h'
      · exact Bool.or_eq_true_iff.mpr (Or.inl h')
      · exact Bool.or_eq_true_iff.mpr (Or.inr (by
          exact decide_eq_true (addDirAll_mono _ _ _ (of_decide_eq_true h'))))
    · rw [processEntry_write overwrite outDir st e (by simpa using hsk) (by simpa using hdir)]
      unfold pathExists at h1 ⊢
      rcases Bool.or_eq_true_iff.mp h1 with h' | h'
      · refine Bool.or_eq_true_iff.mpr (Or.inl ?_)
        simp only [lookupFile_setFile]
        split
        · rfl
        · exact h'
      · exact Bool.or_eq_true_iff.mpr (Or.inr h')

theorem pathExists_foldl (overwrite : Bool) (outDir : RPath) (es : List ZipEntry) :
    ∀ (st : FsState) (p : RPath), pathExists st p = true →
      pathExists (es.foldl (processEntry overwrite outDir) st) p = true := by
  induction es with
  | nil => intro st p h; exact h
  | cons e es ih =>
      intro st p h
      rw [List.foldl_cons]
      exact ih _ _ (pathExists_processEntry _ _ _ _ _ h)

theorem pathExists_extractRun (overwrite : Bool) (outDir : RPath) (st0 : FsState)
    (archive : List ZipEntry) (p : RPath) (h : pathExists st0 p = true) :
    pathExists (extractRun overwrite outDir st0 archive) p = true := by
  unfold extractRun
  apply pathExists_foldl
  split
  · exact h
  · unfold pathExists at h ⊢
    rcases Bool.or_eq_true_iff.mp h with h' | h'
    · exact Bool.or_eq_true_iff.mpr (Or.inl h')
    · exact Bool.or_eq_true_iff.mpr (Or.inr (by
        exact decide_eq_true (addDirAll_mono _ _ _ (of_decide_eq_true h'))))

/-! ## The round-trip law -/

theorem mangledName_of_normal (n : RPath) (h : ∀ s ∈ n, isNormalSeg s = true) :
    mangledName n = n :=
  List.filter_eq_self.mpr h

theorem segsOk_of_mem_filterMap (nodes : List FsNode) (hsegs : nodes.all nodeSegsOk = true)
    (f : RPath × Bytes) (hf : f ∈ nodes.filterMap fsNodeFile?) :
    ∀ s ∈ f.1, isNormalSeg s = true := by
  rcases List.mem_filterMap.mp hf with ⟨n, hn, hsome⟩
  cases n with
  | file p d =>
      simp only [fsNodeFile?] at hsome
      cases hsome
      have := List.all_eq_true.mp hsegs _ hn
      simpa [nodeSegsOk, List.all_eq_true] using this
  | dir p => simp [fsNodeFile?] at hsome

theorem foldl_true_files (outDir : RPath) (es : List ZipEntry) : ∀ st : FsState,
    (∀ e ∈ es, e.isDir = false) →
    (es.map (outPathOf outDir)).Nodup →
    (∀ e ∈ es, lookupFile st.files (outPathOf outDir e) = none) →
    (es.foldl (processEntry true outDir) st).files
      = st.files ++ es.map (fun e => (outPathOf outDir e, e.data)) := by
  induction es with
  | nil => intro st _ _ _; simp
  | cons e es ih =>
      intro st hfile hnodup hlook
      have hnodup' : outPathOf outDir e ∉ es.map (outPathOf outDir)
          ∧ (es.map (outPathOf outDir)).Nodup := by
        rw [List.map_cons] at hnodup
        exact List.nodup_cons.mp hnodup
      rw [List.foldl_cons,
        processEntry_write true outDir st e (by simp) (hfile e (by simp))]
      have hkey : lookupFile st.files (outPathOf outDir e) = none := hlook e (by simp)
      have hset : setFile (mkParents outDir st e).files (outPathOf outDir e)
          (adaptiveCopy e.data.length e.data)
          = st.files ++ [(outPathOf outDir e, e.data)] := by
        rw [mkParents_files, adaptiveCopy_eq]
        exact setFile_of_lookup_none _ _ _ hkey
      rw [ih _ (fun e' he' => hfile e' (by simp [he'])) hnodup'.2 ?_]
      · rw [hset, List.append_assoc]
        simp
      · intro e' he'
        have hne : outPathOf outDir e ≠ outPathOf outDir e' := by
          intro hcontra
          exact hnodup'.1 (hcontra ▸ List.mem_map_of_mem (outPathOf outDir) he')
        rw [hset, lookupFile_append_of_none _ _ _ (hlook e' (by simp [he']))]
        simp [lookupFile, hne]

/-- Claim C1: extracting (overwrite on, into an empty filesystem) the archive
produced by compressing a directory tree yields exactly the tree's files —
the same relative paths and byte-for-byte identical contents — each placed
under the output directory at the source directory's name followed by the
file's relative path (entry names are taken relative to the source's parent
directory). -/
theorem c1_compress_extract_roundtrip (t : SrcTree) (mmapOk : RPath → Bool) (outDir : RPath)
    (hname : isNormalSeg t.name = true)
    (hsegs : t.nodes.all nodeSegsOk = true)
    (hnodup : ((t.nodes.filterMap fsNodeFile?).map Prod.fst).Nodup) :
    (extractRun true outDir ⟨[], [], 0⟩ (compressDir t mmapOk)).files
      = (t.nodes.filterMap fsNodeFile?).map (fun f => (outDir ++ t.name :: f.1, f.2)) := by
  have hcomp : compressDir t mmapOk
      = (t.nodes.filterMap fsNodeFile?).map (fun f => ⟨t.name :: f.1, false, f.2⟩) :=
    compressNodes_eq t.name t.nodes mmapOk
  have hout : ∀ f ∈ t.nodes.filterMap fsNodeFile?,
      outPathOf outDir ⟨t.name :: f.1, false, f.2⟩ = outDir ++ t.name :: f.1 := by
    intro f hf
    unfold outPathOf
    rw [mangledName_of_normal]
    intro s hs
    rcases List.mem_cons.mp hs with h | h
    · exact h ▸ hname
    · exact segsOk_of_mem_filterMap t.nodes hsegs f hf s h
  unfold extractRun
  have hinit : (if pathExists ⟨[], [], 0⟩ outDir then (⟨[], [], 0⟩ : FsState)
      else { files := [], dirs := addDirAll [] outDir, progress := 0 }).files = [] := by
    split <;> rfl
  rw [hcomp, foldl_true_files]
  · rw [hinit, List.nil_append, List.map_map]
    apply List.map_congr_left
    intro f hf
    simp only [Function.comp_apply, hout f hf]
  · intro e he
    rcases List.mem_map.mp he with ⟨f, _, rfl⟩
    rfl
  · rw [List.map_map]
    have : ((t.nodes.filterMap fsNodeFile?).map (outPathOf outDir ∘
        fun f => ⟨t.name :: f.1, false, f.2⟩))
        = (t.nodes.filterMap fsNodeFile?).map (fun f => outDir ++ t.name :: f.1) := by
      apply List.map_congr_left
      intro f hf
      simp only [Function.comp_apply, hout f hf]
    rw [this]
    have hmm : (t.nodes.filterMap fsNodeFile?).map (fun f => outDir ++ t.name :: f.1)
        = ((t.nodes.filterMap fsNodeFile?).map Prod.fst).map
            (fun p => outDir ++ t.name :: p) := by
      rw [List.map_map]
      rfl
    rw [hmm]
    refine hnodup.map ?_
    intro a b hab
    have := List.append_cancel_left hab
    exact (List.cons.injEq _ _ _ _ ▸ this).2
  · intro e he
    rw [hinit]
    rfl

/-- Witness for C1 on the spec's example scenario: `docs/` containing
`a.txt` and `sub/b.txt` compresses and then extracts into `out/` as
`out/docs/a.txt` and `out/docs/sub/b.txt` with the original contents. -/
theorem c1_compress_extract_roundtrip_witness :
    (extractRun true ["out"] ⟨[], [], 0⟩
        (compressDir ⟨"docs", [.dir [], .file ["a.txt"] [10, 20], .dir ["sub"],
          .file ["sub", "b.txt"] [1, 2, 3]]⟩ (fun _ => false))).files
      = [(["out", "docs", "a.txt"], [10, 20]),
         (["out", "docs", "sub", "b.txt"], [1, 2, 3])] := by
  rw [c1_compress_extract_roundtrip _ _ _ (by decide) (by decide) (by decide)]
  rfl

/-! ## Extraction without overwriting -/

theorem pathExists_eq_false_elim (st : FsState) (p : RPath)
    (h : pathExists st p = false) : lookupFile st.files p = none := by
  unfold pathExists at h
  rcases Bool.or_eq_false_iff.mp h with ⟨h1, _⟩
  exact Option.not_isSome_iff_eq_none.mp (by simp [h1])

theorem processEntry_false_nomodify (outDir : RPath) (st : FsState) (e : ZipEntry)
    (p : RPath) (hp : (lookupFile st.files p).isSome = true) :
    lookupFile (processEntry false outDir st e).files p = lookupFile st.files p := by
  by_cases hsk : (!false && pathExists (mkParents outDir st e) (outPathOf outDir e)) = true
  · rw [processEntry_skip_general false outDir st e hsk]
    rw [mkParents_files]
  · by_cases hdir : e.isDir = true
    · rw [processEntry_mkdir false outDir st e (by simpa using hsk) hdir]
      rw [mkParents_files]
    · rw [processEntry_write false outDir st e (by simpa using hsk) (by simpa using hdir)]
      have hnone : lookupFile st.files (outPathOf outDir e) = none := by
        have : pathExists (mkParents outDir st e) (outPathOf outDir e) = false := by
          simpa using hsk
        have := pathExists_eq_false_elim _ _ this
        rwa [mkParents_files] at this
      have hne : outPathOf outDir e ≠ p := by
        intro hcontra
        rw [hcontra] at hnone
        rw [hnone] at hp
        simp at hp
      simp only [mkParents_files, lookupFile_setFile, if_neg hne]

theorem foldl_false_nomodify (outDir : RPath) (es : List ZipEntry) :
    ∀ (st : FsState) (p : RPath), (lookupFile st.files p).isSome = true →
      lookupFile ((es.foldl (processEntry false outDir) st)).files p
        = lookupFile st.files p := by
  induction es with
  | nil => intro st p _; rfl
  | cons e es ih =>
      intro st p hp
      rw [List.foldl_cons]
      have hstep := processEntry_false_nomodify outDir st e p hp
      have hp' : (lookupFile (processEntry false outDir st e).files p).isSome = true := by
        rw [hstep]; exact hp
      rw [ih _ _ hp', hstep]

theorem processEntry_false_progress (outDir : RPath) (st : FsState) (e : ZipEntry)
    (hd : e.isDir = true → e.data = []) :
    (processEntry false outDir st e).progress = st.progress + e.data.length := by
  by_cases hsk : (!false && pathExists (mkParents outDir st e) (outPathOf outDir e)) = true
  · rw [processEntry_skip_general false outDir st e hsk]
    simp [mkParents_progress]
  · by_cases hdir : e.isDir = true
    · rw [processEntry_mkdir false outDir st e (by simpa using hsk) hdir]
      simp [mkParents_progress, hd hdir]
    · rw [processEntry_write false outDir st e (by simpa using hsk) (by simpa using hdir)]
      simp [mkParents_progress, adaptiveCopy_eq]

theorem foldl_false_progress (outDir : RPath) (es : List ZipEntry) :
    ∀ st : FsState, (∀ e ∈ es, e.isDir = true → e.data = []) →
      (es.foldl (processEntry false outDir) st).progress
        = st.progress + archiveTotalSize es := by
  induction es with
  | nil => intro st _; simp [archiveTotalSize]
  | cons e es ih =>
      intro st hd
      rw [List.foldl_cons, ih _ (fun e' he' => hd e' (by simp [he'])),
        processEntry_false_progress outDir st e (hd e (by simp))]
      simp [archiveTotalSize, Nat.add_assoc]

theorem extractRun_stInit_files (outDir : RPath) (st0 : FsState) :
    (if pathExists st0 outDir then st0
      else { st0 with dirs := addDirAll st0.dirs outDir }).files = st0.files := by
  split <;> rfl

theorem extractRun_stInit_progress (outDir : RPath) (st0 : FsState) :
    (if pathExists st0 outDir then st0
      else { st0 with dirs := addDirAll st0.dirs outDir }).progress = st0.progress := by
  split <;> rfl

/-- Claim C4: extraction with overwrite off leaves every pre-existing file's
bytes unchanged, and the final progress still advances by the archive's full
declared uncompressed size — a skipped entry's full size is added to
progress (hypothesis: directory entries carry no data, as zip directory
entries have size 0). -/
theorem c4_no_overwrite_frame (archive : List ZipEntry) (outDir : RPath) (st0 : FsState)
    (hdirs : ∀ e ∈ archive, e.isDir = true → e.data = []) :
    (∀ p, (lookupFile st0.files p).isSome = true →
        lookupFile (extractRun false outDir st0 archive).files p = lookupFile st0.files p)
    ∧ (extractRun false outDir st0 archive).progress
        = st0.progress + archiveTotalSize archive := by
  constructor
  · intro p hp
    unfold extractRun
    have hfi := extractRun_stInit_files outDir st0
    have hp' : (lookupFile (if pathExists st0 outDir then st0
        else { st0 with dirs := addDirAll st0.dirs outDir }).files p).isSome = true := by
      rw [hfi]; exact hp
    rw [foldl_false_nomodify outDir archive _ p hp', hfi]
  · unfold extractRun
    rw [foldl_false_progress outDir archive _ hdirs, extractRun_stInit_progress outDir st0]

/-- Witness for C4: a one-entry archive whose target `out/a.txt` already
holds `[7, 8]`; extraction with overwrite off keeps those bytes and still
counts the skipped entry's 3 bytes of progress. -/
theorem c4_no_overwrite_frame_witness :
    lookupFile (extractRun false ["out"]
        ⟨[(["out", "a.txt"], [7, 8])], [["out"]], 0⟩
        [⟨["a.txt"], false, [1, 2, 3]⟩]).files ["out", "a.txt"] = some [7, 8]
    ∧ (extractRun false ["out"]
        ⟨[(["out", "a.txt"], [7, 8])], [["out"]], 0⟩
        [⟨["a.txt"], false, [1, 2, 3]⟩]).progress = 3 := by
  have h := c4_no_overwrite_frame [⟨["a.txt"], false, [1, 2, 3]⟩] ["out"]
    ⟨[(["out", "a.txt"], [7, 8])], [["out"]], 0⟩ (by decide)
  exact ⟨(h.1 ["out", "a.txt"] (by decide)).trans (by decide), h.2⟩

/-! ## Parent directories are created before the overwrite check -/

theorem mkParents_parent_exists (outDir : RPath) (st : FsState) (e : ZipEntry)
    (h : (outPathOf outDir e).dropLast ≠ []) :
    pathExists (mkParents outDir st e) ((outPathOf outDir e).dropLast) = true := by
  unfold mkParents
  split
  · next hc => exact hc
  · unfold pathExists
    refine Bool.or_eq_true_iff.mpr (Or.inr ?_)
    exact decide_eq_true (mem_addDirAll_self _ _ h)

theorem foldl_false_allskip (outDir : RPath) (es : List ZipEntry) :
    ∀ (st0 st : FsState),
      st.files = st0.files →
      (∀ p, pathExists st0 p = true → pathExists st p = true) →
      es.all (fun e => pathExists st0 (outPathOf outDir e)) = true →
      (es.foldl (processEntry false outDir) st).files = st0.files
      ∧ ∀ e ∈ es, (outPathOf outDir e).dropLast = []
          ∨ pathExists (es.foldl (processEntry false outDir) st)
              ((outPathOf outDir e).dropLast) = true := by
  induction es with
  | nil =>
      intro st0 st hf _ _
      exact ⟨hf, by intro e he; cases he⟩
  | cons e es ih =>
      intro st0 st hf hm hall
      have hall' := List.all_eq_true.mp hall
      have hex_e : pathExists st0 (outPathOf outDir e) = true := hall' e (by simp)
      have hst1 : pathExists (mkParents outDir st e) (outPathOf outDir e) = true :=
        pathExists_mkParents _ _ _ _ (hm _ hex_e)
      have hsk : (!false && pathExists (mkParents outDir st e) (outPathOf outDir e)) = true := by
        simp [hst1]
      rw [List.foldl_cons, processEntry_skip_general false outDir st e hsk]
      have hf' : ({ mkParents outDir st e with
          progress := (mkParents outDir st e).progress + e.data.length } : FsState).files
          = st0.files := by
        rw [show ({ mkParents outDir st e with
          progress := (mkParents outDir st e).progress + e.data.length } : FsState).files
          = (mkParents outDir st e).files from rfl, mkParents_files, hf]
      have hm' : ∀ p, pathExists st0 p = true →
          pathExists ({ mkParents outDir st e with
            progress := (mkParents outDir st e).progress + e.data.length } : FsState) p
            = true := by
        intro p hp
        exact pathExists_mkParents outDir st e p (hm p hp)
      obtain ⟨ihf, ihp⟩ := ih st0 _ hf' hm' (by
        refine List.all_eq_true.mpr ?_
        intro x hx
        exact hall' x (by simp [hx]))
      refine ⟨ihf, ?_⟩
      intro x hx
      rcases List.mem_cons.mp hx with hx | hx
      · subst hx
        by_cases hpar : (outPathOf outDir x).dropLast = []
        · exact Or.inl hpar
        · refine Or.inr ?_
          apply pathExists_foldl
          exact mkParents_parent_exists outDir st x hpar
      · exact ihp x hx

/-- Claim C10: missing parent directories of an entry's target are created
before the overwrite policy is checked, so extraction with overwrite off can
still create directories even when every file entry is skipped: when every
entry's target already exists, no file is written, yet afterwards each
entry's (non-trivial) parent path exists. -/
theorem c10_parents_created_before_skip (archive : List ZipEntry) (outDir : RPath)
    (st0 : FsState)
    (hex : archive.all (fun e => pathExists st0 (outPathOf outDir e)) = true) :
    (extractRun false outDir st0 archive).files = st0.files
    ∧ ∀ e ∈ archive, (outPathOf outDir e).dropLast = []
        ∨ pathExists (extractRun false outDir st0 archive)
            ((outPathOf outDir e).dropLast) = true := by
  unfold extractRun
  apply foldl_false_allskip
  · exact extractRun_stInit_files outDir st0
  · intro p hp
    split
    · exact hp
    · unfold pathExists at hp ⊢
      rcases Bool.or_eq_true_iff.mp hp with h' | h'
      · exact Bool.or_eq_true_iff.mpr (Or.inl h')
      · exact Bool.or_eq_true_iff.mpr (Or.inr (by
          exact decide_eq_true (addDirAll_mono _ _ _ (of_decide_eq_true h'))))
  · exact hex

/-- Witness for C10: the target `out/sub/a.txt` pre-exists as a file while
its parent `out/sub` does not; with overwrite off the file entry is skipped
(no file written), yet its parent directory chain is created on disk. -/
theorem c10_parents_created_before_skip_witness :
    (extractRun false ["out"]
        ⟨[(["out", "sub", "a.txt"], [7])], [], 0⟩
        [⟨["sub", "a.txt"], false, [1]⟩]).files = [(["out", "sub", "a.txt"], [7])]
    ∧ (["out", "sub"] ∈ (extractRun false ["out"]
        ⟨[(["out", "sub", "a.txt"], [7])], [], 0⟩
        [⟨["sub", "a.txt"], false, [1]⟩]).dirs) := by
  have h := c10_parents_created_before_skip [⟨["sub", "a.txt"], false, [1]⟩] ["out"]
    ⟨[(["out", "sub", "a.txt"], [7])], [], 0⟩ (by decide)
  exact ⟨h.1, by decide⟩

/-! ## No path traversal

Extraction joins the output directory with the sanitised entry name.  To
state "every produced output path resolves inside the output directory" we
resolve paths the way a filesystem does (`..` pops one component) and show
the resolved target always extends the resolved output directory. -/

/-- Modelled from the spec: one step of filesystem path resolution — `..`
pops the last component, `.` and empty components are no-ops, a normal
component descends. -/
def resolveStep (acc : RPath) (s : Seg) : RPath :=
  if s = ".." then acc.dropLast
  else if s = "." ∨ s = "" then acc
  else acc ++ [s]

/-- Modelled from the spec: resolve a path from the filesystem root of its
base. -/
def resolvePath (p : RPath) : RPath :=
  p.foldl resolveStep []

/-- Modelled from the spec: the depth check of the zip codec's
`enclosed_name` used at src/main.rs line 316 — walk the components keeping a
depth counter; a `..` at depth 0 rejects the name, otherwise it pops;
`.` and empty components are neutral; normal components descend. -/
def encCheck : RPath → Nat → Bool
  | [], _ => true
  | s :: rest, depth =>
      if s = ".." then
        match depth with
        | 0 => false
        | d + 1 => encCheck rest d
      else if s = "." ∨ s = "" then encCheck rest depth
      else encCheck rest (depth + 1)

/-- Modelled from the spec: `enclosed_name` — the entry name itself when the
depth check accepts it, `none` (entry skipped) otherwise. -/
def enclosedName (name : RPath) : Option RPath :=
  if encCheck name 0 then some name else none

theorem foldl_resolveStep_normal (m : RPath) : ∀ acc : RPath,
    (∀ s ∈ m, isNormalSeg s = true) → m.foldl resolveStep acc = acc ++ m := by
  induction m with
  | nil => intro acc _; simp
  | cons s m ih =>
      intro acc h
      have hs := h s (by simp)
      simp only [isNormalSeg, Bool.and_eq_true, Bool.not_eq_true', decide_eq_false_iff_not]
        at hs
      rw [List.foldl_cons, show resolveStep acc s = acc ++ [s] from by
        unfold resolveStep
        rw [if_neg hs.2, if_neg (by push_neg; exact ⟨hs.1.2, hs.1.1⟩)],
        ih _ (fun s' hs' => h s' (by simp [hs']))]
      simp

theorem resolvePath_append_normal (q m : RPath) (h : ∀ s ∈ m, isNormalSeg s = true) :
    resolvePath (q ++ m) = resolvePath q ++ m := by
  unfold resolvePath
  rw [List.foldl_append]
  exact foldl_resolveStep_normal m _ h

theorem dropLast_append_ne_nil (base acc : RPath) (h : acc ≠ []) :
    (base ++ acc).dropLast = base ++ acc.dropLast := by
  rcases List.eq_nil_or_concat acc with rfl | ⟨L, b, rfl⟩
  · exact absurd rfl h
  · rw [List.concat_eq_append, ← List.append_assoc, List.dropLast_concat,
      List.dropLast_concat]

theorem encCheck_sound (m : RPath) : ∀ (d : Nat) (base acc : RPath),
    encCheck m d = true → acc.length = d →
    ∃ acc', m.foldl resolveStep (base ++ acc) = base ++ acc' := by
  induction m with
  | nil => intro d base acc _ _; exact ⟨acc, rfl⟩
  | cons s rest ih =>
      intro d base acc hchk hlen
      rw [List.foldl_cons]
      by_cases h1 : s = ".."
      · subst h1
        unfold encCheck at hchk
        rw [if_pos rfl] at hchk
        match d, hchk with
        | d + 1, hchk =>
            have hne : acc ≠ [] := by
              intro hcontra
              rw [hcontra] at hlen
              simp at hlen
            rw [show resolveStep (base ++ acc) ".." = base ++ acc.dropLast from by
              unfold resolveStep
              rw [if_pos rfl, dropLast_append_ne_nil base acc hne]]
            exact ih d base acc.dropLast hchk (by rw [List.length_dropLast, hlen]; rfl)
      · by_cases h2 : s = "." ∨ s = ""
        · unfold encCheck at hchk
          rw [if_neg h1, if_pos h2] at hchk
          rw [show resolveStep (base ++ acc) s = base ++ acc from by
            unfold resolveStep
            rw [if_neg h1, if_pos h2]]
          exact ih d base acc hchk hlen
        · unfold encCheck at hchk
          rw [if_neg h1, if_neg h2] at hchk
          rw [show resolveStep (base ++ acc) s = base ++ (acc ++ [s]) from by
            unfold resolveStep
            rw [if_neg h1, if_neg h2, List.append_assoc]]
          exact ih (d + 1) base (acc ++ [s]) hchk (by simp [hlen])

theorem processEntry_files_key (overwrite : Bool) (outDir : RPath) (st : FsState)
    (e : ZipEntry) (p : RPath)
    (h : (lookupFile (processEntry overwrite outDir st e).files p).isSome = true) :
    (lookupFile st.files p).isSome = true ∨ p = outPathOf outDir e := by
  by_cases hsk : (!overwrite && pathExists (mkParents outDir st e) (outPathOf outDir e)) = true
  · rw [processEntry_skip_general overwrite outDir st e hsk] at h
    exact Or.inl (by simpa [mkParents_files] using h)
  · by_cases hdir : e.isDir = true
    · rw [processEntry_mkdir overwrite outDir st e (by simpa using hsk) hdir] at h
      exact Or.inl (by simpa [mkParents_files] using h)
    · rw [processEntry_write overwrite outDir st e (by simpa using hsk) (by simpa using hdir)]
        at h
      simp only [mkParents_files, lookupFile_setFile] at h
      by_cases hp : outPathOf outDir e = p
      · exact Or.inr hp.symm
      · rw [if_neg hp] at h
        exact Or.inl h

theorem foldl_files_key (overwrite : Bool) (outDir : RPath) (es : List ZipEntry) :
    ∀ (st : FsState) (p : RPath),
      (lookupFile ((es.foldl (processEntry overwrite outDir) st)).files p).isSome = true →
      (lookupFile st.files p).isSome = true ∨ ∃ e ∈ es, p = outPathOf outDir e := by
  induction es with
  | nil => intro st p h; exact Or.inl h
  | cons e es ih =>
      intro st p h
      rw [List.foldl_cons] at h
      rcases ih _ _ h with h' | ⟨e', he', hp⟩
      · rcases processEntry_files_key overwrite outDir st e p h' with h'' | h''
        · exact Or.inl h''
        · exact Or.inr ⟨e, by simp, h''⟩
      · exact Or.inr ⟨e', by simp [he'], hp⟩

/-- Claim C2: extraction never writes a file outside the output directory.
The sanitiser keeps only normal components, so an entry name containing
`../` segments is rewritten; every file produced by extraction (beyond the
initial state) sits at the output directory extended by normal components
and hence resolves inside the output directory.  The `enclosed_name`
variant of src/main.rs rejects a name outright unless its depth check
passes, in which case the joined target also resolves inside the output
directory. -/
theorem c2_no_path_traversal (archive : List ZipEntry) (overwrite : Bool) (outDir : RPath)
    (st0 : FsState) :
    (∀ e : ZipEntry, ∀ s ∈ mangledName e.name, isNormalSeg s = true)
    ∧ (∀ p, (lookupFile (extractRun overwrite outDir st0 archive).files p).isSome = true →
        (lookupFile st0.files p).isSome = true
        ∨ ∃ m, (∀ s ∈ m, isNormalSeg s = true) ∧ p = outDir ++ m
            ∧ resolvePath p = resolvePath outDir ++ m)
    ∧ (∀ name m, enclosedName name = some m →
        resolvePath outDir <+: resolvePath (outDir ++ m)) := by
  refine ⟨?_, ?_, ?_⟩
  · intro e s hs
    exact List.of_mem_filter hs
  · intro p hp
    unfold extractRun at hp
    rcases foldl_files_key overwrite outDir archive _ p hp with h' | ⟨e, _, rfl⟩
    · rw [show (if pathExists st0 outDir then st0
          else { st0 with dirs := addDirAll st0.dirs outDir }).files = st0.files from
          extractRun_stInit_files outDir st0] at h'
      exact Or.inl h'
    · refine Or.inr ⟨mangledName e.name, fun s hs => List.of_mem_filter hs, rfl, ?_⟩
      exact resolvePath_append_normal outDir (mangledName e.name)
        (fun s hs => List.of_mem_filter hs)
  · intro name m h
    unfold enclosedName at h
    split at h
    · next hc =>
        cases h
        obtain ⟨acc', hacc⟩ := encCheck_sound name 0 (resolvePath outDir) [] hc rfl
        rw [List.append_nil] at hacc
        have heq : resolvePath (outDir ++ name) = resolvePath outDir ++ acc' := by
          unfold resolvePath
          rw [List.foldl_append]
          exact hacc
        rw [heq]
        exact ⟨acc', rfl⟩
    · exact Option.noConfusion h

/-- Witness for C2, at an archive holding a single traversal entry
`../evil`: its name is rewritten to stay inside `out`, every produced file
resolves inside `out`, and the reject variant only accepts names whose
join resolves inside `out`. -/
theorem c2_no_path_traversal_witness :
    (∀ e : ZipEntry, ∀ s ∈ mangledName e.name, isNormalSeg s = true)
    ∧ (∀ p, (lookupFile (extractRun true ["out"] ⟨[], [], 0⟩
          [⟨["..", "evil"], false, [9]⟩]).files p).isSome = true →
        (lookupFile (⟨[], [], 0⟩ : FsState).files p).isSome = true
        ∨ ∃ m, (∀ s ∈ m, isNormalSeg s = true) ∧ p = ["out"] ++ m
            ∧ resolvePath p = resolvePath ["out"] ++ m)
    ∧ (∀ name m, enclosedName name = some m →
        resolvePath ["out"] <+: resolvePath (["out"] ++ m)) :=
  c2_no_path_traversal [⟨["..", "evil"], false, [9]⟩] true ["out"] ⟨[], [], 0⟩

/-! ## Compression level interpretation (src/compress.rs lines 26-33,
src/main.rs lines 219-233)

The two compress implementations handle the level differently.  The library
`compress` of src/compress.rs builds its `FileOptions` with the method
hard-coded to deflate for every level and passes the level to the external
codec unclamped (`compression_level(Some(level as i32))`).  The standalone
`compress` of src/main.rs clamps the level to at most 9, selects the
"store" method for level 0 and "deflate" otherwise, and writes each entry
with the selected method. -/

/-- The two compression methods the tool selects between. -/
inductive CompressionMethod where
  | stored
  | deflated
  deriving Repr, DecidableEq

/-- The entry options built by the library `compress` (src/compress.rs lines
31-33): `compression_method` is hard-coded to deflate — for level 0 too —
and `compression_level` carries the caller's level unchanged (no clamping
happens in this repository; the value goes to the external codec as is). -/
structure FileOptionsLib where
  method : CompressionMethod
  level : Nat
  deriving Repr, DecidableEq

/-- Build the library compress's `FileOptions` from the caller's level. -/
def mkOptionsLib (level : Nat) : FileOptionsLib :=
  { method := .deflated, level := level }

/-- Level clamping of src/main.rs line 220: values above 9 become 9; no
level is rejected. -/
def clampLevelMain (level : Nat) : Nat :=
  if level > 9 then 9 else level

/-- An entry as recorded in the written archive: method, uncompressed size
and compressed size. -/
structure WrittenEntry where
  method : CompressionMethod
  size : Nat
  compressedSize : Nat
  deriving Repr, DecidableEq

/-- The entry the src/main.rs `compress` writes for one file: method chosen
from the clamped level (0 selects store).  `deflateLen` abstracts the
external deflate codec's output size; modelled from the spec, a "store"
entry writes the bytes verbatim, so its compressed size equals its
uncompressed size. -/
def mkEntryMain (deflateLen : Bytes → Nat) (level : Nat) (data : Bytes) : WrittenEntry :=
  let cl := clampLevelMain level
  let m : CompressionMethod := match cl with
    | 0 => .stored
    | _ + 1 => .deflated
  { method := m
    size := data.length
    compressedSize :=
      match m with
      | .stored => data.length
      | .deflated => deflateLen data }

/-- Counterexample to claim C3 as stated: through the library `compress` of
src/compress.rs (one of the claim's cited sources) level 0 does not produce
"store" entries — the options built for level 0 carry the deflate method —
and level 12 is not clamped to 9 in this repository's code: the options
carry 12 to the external codec unchanged. -/
theorem c3_counterexample :
    (mkOptionsLib 0).method = CompressionMethod.deflated
    ∧ (mkOptionsLib 0).method ≠ CompressionMethod.stored
    ∧ (mkOptionsLib 12).level = 12
    ∧ (mkOptionsLib 12).level ≠ 9 := by
  exact ⟨rfl, by decide, rfl, by decide⟩

/-- Claim C3 as amended: the standalone `compress` of src/main.rs interprets
the level as the claim states — values above 9 are clamped to 9 (not
rejected), level 0 produces "store" entries whose compressed size equals
their uncompressed size, levels 1-9 (and any clamped level) deflate.  The
library `compress` of src/compress.rs, however, hard-codes the deflate
method for every level — level 0 included — and passes the level to the
external codec unclamped. -/
theorem c3_level_interpretation (deflateLen : Bytes → Nat) (level : Nat) (data : Bytes) :
    (level > 9 → clampLevelMain level = 9
      ∧ mkEntryMain deflateLen level data = mkEntryMain deflateLen 9 data)
    ∧ (level ≤ 9 → clampLevelMain level = level)
    ∧ (level = 0 → (mkEntryMain deflateLen level data).method = .stored
        ∧ (mkEntryMain deflateLen level data).compressedSize
            = (mkEntryMain deflateLen level data).size)
    ∧ (1 ≤ level → (mkEntryMain deflateLen level data).method = .deflated)
    ∧ (mkOptionsLib level).method = .deflated
    ∧ (mkOptionsLib level).level = level := by
  refine ⟨?_, ?_, ?_, ?_, rfl, rfl⟩
  · intro h
    constructor
    · simp [clampLevelMain, h]
    · simp [mkEntryMain, clampLevelMain, h]
  · intro h
    simp [clampLevelMain, Nat.not_lt.mpr h]
  · intro h
    subst h
    exact ⟨rfl, rfl⟩
  · intro h
    by_cases h9 : level > 9
    · simp [mkEntryMain, clampLevelMain, h9]
    · match level, h with
      | l + 1, _ => simp [mkEntryMain, clampLevelMain, h9]

/-- Witness for the amended C3: through src/main.rs, level 0 gives a store
entry with compressed size equal to its size and level 12 is clamped to 9
and deflates; through src/compress.rs, level 0 still deflates and level 12
reaches the codec unclamped. -/
theorem c3_level_interpretation_witness :
    ((mkEntryMain List.length 0 [1, 2]).method = .stored
      ∧ (mkEntryMain List.length 0 [1, 2]).compressedSize
          = (mkEntryMain List.length 0 [1, 2]).size)
    ∧ clampLevelMain 12 = 9
    ∧ mkEntryMain List.length 12 [1] = mkEntryMain List.length 9 [1]
    ∧ (mkEntryMain List.length 12 [1]).method = .deflated
    ∧ (mkEntryMain List.length 5 [1]).method = .deflated
    ∧ (mkOptionsLib 0).method = .deflated
    ∧ (mkOptionsLib 12).level = 12 := by
  refine ⟨(c3_level_interpretation List.length 0 [1, 2]).2.2.1 rfl, ?_, ?_, ?_, ?_, ?_, ?_⟩
  · exact ((c3_level_interpretation List.length 12 [1]).1 (by norm_num)).1
  · exact ((c3_level_interpretation List.length 12 [1]).1 (by norm_num)).2
  · exact (c3_level_interpretation List.length 12 [1]).2.2.2.1 (by norm_num)
  · exact (c3_level_interpretation List.length 5 [1]).2.2.2.1 (by norm_num)
  · exact (c3_level_interpretation List.length 0 [1]).2.2.2.2.1
  · exact (c3_level_interpretation List.length 12 [1]).2.2.2.2.2

/-! ## The memory-mapped fast path -/

/-- Claim C5: above the 100 MiB threshold a successful memory mapping is
used and writes the file's bytes in one pass; a failed mapping falls back to
the chunked copy which writes the same bytes; and the mapping outcome never
changes the produced archive — in particular a mapping failure is never an
error of the compression job (`writeFileData` and `compressDir` are total
in the mapping oracle). -/
theorem c5_mmap_fast_path (fileSize : Nat) (data : Bytes) (t : SrcTree)
    (mmapOk : RPath → Bool) (hbig : MMAP_THRESHOLD < fileSize) :
    (writeFileData fileSize data true).usedMmap = true
    ∧ (writeFileData fileSize data true).bytes = data
    ∧ (writeFileData fileSize data false).usedMmap = false
    ∧ (writeFileData fileSize data false).bytes = data
    ∧ compressDir t mmapOk = compressDir t (fun _ => true) := by
  refine ⟨?_, writeFileData_bytes _ _ _, ?_, writeFileData_bytes _ _ _, ?_⟩
  · unfold writeFileData
    rw [if_pos hbig]
    rfl
  · unfold writeFileData
    rw [if_pos hbig]
    rfl
  · exact (compressNodes_eq t.name t.nodes mmapOk).trans
      (compressNodes_eq t.name t.nodes (fun _ => true)).symm

/-- Witness for C5 at a file one byte above the 100 MiB threshold. -/
theorem c5_mmap_fast_path_witness :
    (writeFileData (100 * 1024 * 1024 + 1) [1, 2, 3] true).usedMmap = true
    ∧ (writeFileData (100 * 1024 * 1024 + 1) [1, 2, 3] true).bytes = [1, 2, 3]
    ∧ (writeFileData (100 * 1024 * 1024 + 1) [1, 2, 3] false).usedMmap = false
    ∧ (writeFileData (100 * 1024 * 1024 + 1) [1, 2, 3] false).bytes = [1, 2, 3]
    ∧ compressDir ⟨"d", [.file ["a"] [5]]⟩ (fun _ => false)
        = compressDir ⟨"d", [.file ["a"] [5]]⟩ (fun _ => true) :=
  c5_mmap_fast_path (100 * 1024 * 1024 + 1) [1, 2, 3] ⟨"d", [.file ["a"] [5]]⟩
    (fun _ => false) (by norm_num [MMAP_THRESHOLD])

/-! ## Buffer sizing policy invariants -/

theorem chain_scanl_nextBuf (reads : List Nat) : ∀ init : Nat,
    List.Chain' (· ≤ ·) (List.scanl nextBufSize init reads) := by
  induction reads with
  | nil => intro init; simp
  | cons r rs ih =>
      intro init
      rw [show List.scanl nextBufSize init (r :: rs)
        = init :: List.scanl nextBufSize (nextBufSize init r) rs from rfl]
      refine List.chain'_cons'.mpr ⟨?_, ih _⟩
      intro c hc
      have hhead : (List.scanl nextBufSize (nextBufSize init r) rs).head?
          = some (nextBufSize init r) := by
        cases rs <;> rfl
      rw [hhead] at hc
      simp only [Option.mem_def, Option.some.injEq] at hc
      exact hc ▸ le_nextBufSize init r

theorem scanl_nextBuf_le (reads : List Nat) : ∀ init : Nat, init ≤ MAX_BUFFER_SIZE →
    ∀ x ∈ List.scanl nextBufSize init reads, x ≤ MAX_BUFFER_SIZE := by
  induction reads with
  | nil =>
      intro init h x hx
      simp at hx
      omega
  | cons r rs ih =>
      intro init h x hx
      rw [show List.scanl nextBufSize init (r :: rs)
        = init :: List.scanl nextBufSize (nextBufSize init r) rs from rfl] at hx
      rcases List.mem_cons.mp hx with rfl | hx
      · exact h
      · exact ih _ (nextBufSize_le_max _ _ h) _ hx

/-- Claim C6: the chunked copy's buffer starts at 32 KiB for total sizes
below 1 MiB and at 64 KiB otherwise; a read that fills the buffer completely
doubles it, capped at the 2 MiB ceiling, and any other read leaves it
unchanged; along any sequence of reads the buffer sizes never decrease and
never exceed the ceiling. -/
theorem c6_buffer_policy (size b r init : Nat) (reads : List Nat) :
    (size < 1024 * 1024 → initialBufferSize size = 32 * 1024)
    ∧ (1024 * 1024 ≤ size → initialBufferSize size = 64 * 1024)
    ∧ (b < MAX_BUFFER_SIZE → nextBufSize b b = min (2 * b) MAX_BUFFER_SIZE)
    ∧ (r ≠ b → nextBufSize b r = b)
    ∧ (MAX_BUFFER_SIZE ≤ b → nextBufSize b r = b)
    ∧ List.Chain' (· ≤ ·) (List.scanl nextBufSize init reads)
    ∧ (init ≤ MAX_BUFFER_SIZE → ∀ x ∈ List.scanl nextBufSize init reads,
        x ≤ MAX_BUFFER_SIZE)
    ∧ initialBufferSize size ≤ MAX_BUFFER_SIZE
    ∧ MAX_BUFFER_SIZE = 2 * 1024 * 1024 := by
  refine ⟨?_, ?_, ?_, ?_, ?_, chain_scanl_nextBuf reads init, scanl_nextBuf_le reads init,
    ?_, rfl⟩
  · intro h
    simp [initialBufferSize, h]
  · intro h
    simp [initialBufferSize, Nat.not_lt.mpr h]
  · intro h
    unfold nextBufSize
    rw [if_pos ⟨h, rfl⟩]
  · intro h
    unfold nextBufSize
    rw [if_neg (fun hc => h hc.2)]
  · intro h
    unfold nextBufSize
    rw [if_neg (fun hc => absurd hc.1 (Nat.not_lt.mpr h))]
  · unfold initialBufferSize MAX_BUFFER_SIZE
    split <;> norm_num

/-- Witness for C6: concrete buffer sizes and a concrete read trace
(a full 32 KiB read doubles the buffer, a short read keeps it). -/
theorem c6_buffer_policy_witness :
    initialBufferSize 5 = 32 * 1024
    ∧ initialBufferSize (1024 * 1024) = 64 * 1024
    ∧ nextBufSize 65536 65536 = min (2 * 65536) MAX_BUFFER_SIZE
    ∧ nextBufSize 65536 100 = 65536
    ∧ List.Chain' (· ≤ ·) (List.scanl nextBufSize 32768 [32768, 65536, 7])
    ∧ (∀ x ∈ List.scanl nextBufSize 32768 [32768, 65536, 7], x ≤ MAX_BUFFER_SIZE) := by
  refine ⟨(c6_buffer_policy 5 0 0 0 []).1 (by norm_num),
    (c6_buffer_policy (1024 * 1024) 0 0 0 []).2.1 (by norm_num),
    (c6_buffer_policy 0 65536 0 0 []).2.2.1 (by norm_num [MAX_BUFFER_SIZE]),
    (c6_buffer_policy 0 65536 100 0 []).2.2.2.1 (by norm_num),
    (c6_buffer_policy 0 0 0 32768 [32768, 65536, 7]).2.2.2.2.2.1,
    (c6_buffer_policy 0 0 0 32768 [32768, 65536, 7]).2.2.2.2.2.2.1
      (by norm_num [MAX_BUFFER_SIZE])⟩

/-! ## Traversal error handling (src/compress.rs lines 83-116, src/main.rs
lines 246-255)

The library `compress_directory` runs `let entry = entry?;` on every walk
item, so the first traversal failure aborts the whole job with
`ZipError::WalkDir`.  The standalone `compress` of src/main.rs instead
collects walk items with `filter_map(|e| e.ok())`, silently dropping
failures and reporting success. -/

/-- The error type of src/error.rs (`ZipError`); payloads irrelevant to the
claims are elided, and the walkdir error is abstracted to a numeric code. -/
inductive ZipErr where
  | ioErr
  | zipErr
  | stripPrefixErr
  | invalidPath (p : String)
  | utf8Err
  | walkDir (code : Nat)
  | otherErr (msg : String)
  deriving Repr, DecidableEq

/-- The walk-and-write loop of src/compress.rs `compress_directory` over a
stream of walk results: the first traversal error aborts the job with
`ZipError::WalkDir`; otherwise each regular file becomes an entry written
through `writeFileData`. -/
def collectWalk (dirName : Seg) (mmapOk : RPath → Bool) :
    List (Except Nat FsNode) → Except ZipErr (List ZipEntry)
  | [] => .ok []
  | .error c :: _ => .error (.walkDir c)
  | .ok n :: rest =>
      (collectWalk dirName mmapOk rest).map fun es =>
        (match n with
         | .file p d => [(⟨dirName :: p, false, (writeFileData d.length d (mmapOk p)).bytes⟩
             : ZipEntry)]
         | .dir _ => []) ++ es

/-- The file enumeration of the src/main.rs `compress` (lines 246-255):
`filter_map(|e| e.ok())` drops every failed walk item, keeping the files
that could be read. -/
def compressMainFiles (dirName : Seg) (walk : List (Except Nat FsNode)) : List ZipEntry :=
  (walk.filterMap Except.toOption).filterMap fun n =>
    match n with
    | .file p d => some ⟨dirName :: p, false, d⟩
    | .dir _ => none

/-- The src/main.rs `compress` over a walk stream: it never fails on a
traversal error, returning the archive of the readable files. -/
def compressMain (dirName : Seg) (walk : List (Except Nat FsNode)) :
    Except ZipErr (List ZipEntry) :=
  .ok (compressMainFiles dirName walk)

/-- Counterexample to claim C8 as stated: a walk in which one item is
unreadable (`.error 5`).  The src/main.rs `compress` (one of the claim's
cited sources) does not return an error — it silently skips the unreadable
item and reports a partial archive as success. -/
theorem c8_counterexample :
    compressMain "docs" [.ok (.file ["a.txt"] [1, 2]), .error 5]
      = Except.ok [⟨["docs", "a.txt"], false, [1, 2]⟩]
    ∧ (compressMain "docs" [.ok (.file ["a.txt"] [1, 2]), .error 5]).isOk = true
    ∧ (Except.error 5 : Except Nat FsNode) ∈
        [Except.ok (FsNode.file ["a.txt"] [1, 2]), Except.error 5] := by
  exact ⟨rfl, rfl, by simp⟩

theorem collectWalk_error (dirName : Seg) (mmapOk : RPath → Bool) :
    ∀ walk : List (Except Nat FsNode), (∃ c, Except.error c ∈ walk) →
      ∃ c, collectWalk dirName mmapOk walk = .error (.walkDir c) := by
  intro walk
  induction walk with
  | nil =>
      intro ⟨c, hc⟩
      cases hc
  | cons x rest ih =>
      intro ⟨c, hc⟩
      cases x with
      | error c' => exact ⟨c', rfl⟩
      | ok n =>
          have hc' : Except.error c ∈ rest := by
            rcases List.mem_cons.mp hc with h | h
            · exact absurd h (by simp)
            · exact h
          obtain ⟨c'', hc''⟩ := ih ⟨c, hc'⟩
          refine ⟨c'', ?_⟩
          show (collectWalk dirName mmapOk rest).map _ = _
          rw [hc'']
          rfl

/-- Claim C8 as amended: the library pipeline (src/compress.rs) aborts the
whole job on the first unreadable walk item, returning the traversal error
(`ZipError::WalkDir`, wrapping the underlying I/O failure) and never
silently skipping; but the standalone src/main.rs `compress` always reports
success, silently skipping unreadable items. -/
theorem c8_traversal_error_policy (dirName : Seg) (mmapOk : RPath → Bool)
    (walk : List (Except Nat FsNode)) (herr : ∃ c, Except.error c ∈ walk) :
    (∃ c, collectWalk dirName mmapOk walk = .error (.walkDir c))
    ∧ (compressMain dirName walk).isOk = true :=
  ⟨collectWalk_error dirName mmapOk walk herr, rfl⟩

/-- Witness for the amended C8 at a concrete two-item walk with one
unreadable item. -/
theorem c8_traversal_error_policy_witness :
    (∃ c, collectWalk "docs" (fun _ => false)
        [.ok (.file ["a.txt"] [1, 2]), .error 5] = .error (.walkDir c))
    ∧ (compressMain "docs" [.ok (.file ["a.txt"] [1, 2]), .error 5]).isOk = true :=
  c8_traversal_error_policy "docs" (fun _ => false)
    [.ok (.file ["a.txt"] [1, 2]), .error 5] ⟨5, by simp⟩

/-! ## Directories produce no archive entries -/

theorem dropLastPre (l : RPath) : l.dropLast <+: l := by
  rcases List.eq_nil_or_concat l with rfl | ⟨L, b, rfl⟩
  · exact ⟨[], rfl⟩
  · rw [List.concat_eq_append, List.dropLast_concat]
    exact ⟨[b], rfl⟩

theorem pre_cancel_left (l a b : List Seg) (h : (l ++ a) <+: (l ++ b)) : a <+: b := by
  obtain ⟨t, ht⟩ := h
  rw [List.append_assoc] at ht
  exact ⟨t, List.append_cancel_left ht⟩

theorem compressNodes_filter_files (dn : Seg) (mm : RPath → Bool) :
    ∀ nodes : List FsNode,
      compressNodes dn (nodes.filter fun n => (fsNodeFile? n).isSome) mm
        = compressNodes dn nodes mm := by
  intro nodes
  induction nodes with
  | nil => rfl
  | cons n rest ih =>
      cases n with
      | file p d =>
          have hf : (FsNode.file p d :: rest).filter (fun n => (fsNodeFile? n).isSome)
              = FsNode.file p d :: rest.filter (fun n => (fsNodeFile? n).isSome) := by
            rw [List.filter_cons]
            rfl
          rw [hf]
          show (⟨dn :: p, false, (writeFileData d.length d (mm p)).bytes⟩ : ZipEntry)
              :: compressNodes dn (rest.filter fun n => (fsNodeFile? n).isSome) mm
            = (⟨dn :: p, false, (writeFileData d.length d (mm p)).bytes⟩ : ZipEntry)
              :: compressNodes dn rest mm
          rw [ih]
      | dir p =>
          have hf : (FsNode.dir p :: rest).filter (fun n => (fsNodeFile? n).isSome)
              = rest.filter (fun n => (fsNodeFile? n).isSome) := by
            rw [List.filter_cons]
            rfl
          rw [hf]
          show compressNodes dn (rest.filter fun n => (fsNodeFile? n).isSome) mm
            = compressNodes dn rest mm
          exact ih

theorem mkParents_dirs_key (outDir : RPath) (st : FsState) (e : ZipEntry) (r : RPath)
    (h : r ∈ (mkParents outDir st e).dirs) : r ∈ st.dirs ∨ r <+: outPathOf outDir e := by
  unfold mkParents at h
  split at h
  · exact Or.inl h
  · rcases mem_of_addDirAll _ _ _ h with h' | h'
    · exact Or.inl h'
    · exact Or.inr (h'.trans (dropLastPre _))

theorem processEntry_dirs_key (overwrite : Bool) (outDir : RPath) (st : FsState)
    (e : ZipEntry) (r : RPath) (h : r ∈ (processEntry overwrite outDir st e).dirs) :
    r ∈ st.dirs ∨ r <+: outPathOf outDir e := by
  by_cases hsk : (!overwrite && pathExists (mkParents outDir st e) (outPathOf outDir e)) = true
  · rw [processEntry_skip_general overwrite outDir st e hsk] at h
    exact mkParents_dirs_key outDir st e r h
  · by_cases hdir : e.isDir = true
    · rw [processEntry_mkdir overwrite outDir st e (by simpa using hsk) hdir] at h
      rcases mem_of_addDirAll _ _ _ h with h' | h'
      · exact mkParents_dirs_key outDir st e r h'
      · exact Or.inr h'
    · rw [processEntry_write overwrite outDir st e (by simpa using hsk) (by simpa using hdir)]
        at h
      exact mkParents_dirs_key outDir st e r h

theorem foldl_dirs_key (overwrite : Bool) (outDir : RPath) (es : List ZipEntry) :
    ∀ (st : FsState) (r : RPath),
      r ∈ ((es.foldl (processEntry overwrite outDir) st)).dirs →
      r ∈ st.dirs ∨ ∃ e ∈ es, r <+: outPathOf outDir e := by
  induction es with
  | nil => intro st r h; exact Or.inl h
  | cons e es ih =>
      intro st r h
      rw [List.foldl_cons] at h
      rcases ih _ _ h with h' | ⟨e', he', hp⟩
      · rcases processEntry_dirs_key overwrite outDir st e r h' with h'' | h''
        · exact Or.inl h''
        · exact Or.inr ⟨e, by simp, h''⟩
      · exact Or.inr ⟨e', by simp [he'], hp⟩

/-- Claim C9: compression adds an entry only for regular files — no
directory entries are ever written (dropping the directory nodes of the walk
changes nothing) — so an empty directory of the source, having no file
beneath it, contributes no entry and extraction does not recreate it. -/
theorem c9_no_directory_entries (t : SrcTree) (mmapOk : RPath → Bool) (overwrite : Bool)
    (outDir : RPath) (dp : RPath)
    (hname : isNormalSeg t.name = true)
    (hsegs : t.nodes.all nodeSegsOk = true)
    (_hdir : FsNode.dir dp ∈ t.nodes)
    (_hne : dp ≠ [])
    (hempty : ∀ f ∈ t.nodes.filterMap fsNodeFile?, ¬ dp <+: f.1) :
    (∀ e ∈ compressDir t mmapOk, e.isDir = false)
    ∧ compressNodes t.name (t.nodes.filter (fun n => (fsNodeFile? n).isSome)) mmapOk
        = compressDir t mmapOk
    ∧ (∀ e ∈ compressDir t mmapOk, e.name ≠ t.name :: dp)
    ∧ (outDir ++ t.name :: dp)
        ∉ (extractRun overwrite outDir ⟨[], [], 0⟩ (compressDir t mmapOk)).dirs := by
  have hcomp : compressDir t mmapOk
      = (t.nodes.filterMap fsNodeFile?).map (fun f => ⟨t.name :: f.1, false, f.2⟩) :=
    compressNodes_eq t.name t.nodes mmapOk
  refine ⟨?_, ?_, ?_, ?_⟩
  · intro e he
    rw [hcomp] at he
    rcases List.mem_map.mp he with ⟨f, _, rfl⟩
    rfl
  · exact compressNodes_filter_files t.name mmapOk t.nodes
  · intro e he hcontra
    rw [hcomp] at he
    rcases List.mem_map.mp he with ⟨f, hf, rfl⟩
    have : f.1 = dp := by
      have := congrArg List.tail hcontra
      simpa using this
    exact hempty f hf (this ▸ ⟨[], List.append_nil _⟩)
  · intro hmem
    have hout : ∀ f ∈ t.nodes.filterMap fsNodeFile?,
        outPathOf outDir ⟨t.name :: f.1, false, f.2⟩ = outDir ++ t.name :: f.1 := by
      intro f hf
      unfold outPathOf
      rw [mangledName_of_normal]
      intro s hs
      rcases List.mem_cons.mp hs with h | h
      · exact h ▸ hname
      · exact segsOk_of_mem_filterMap t.nodes hsegs f hf s h
    unfold extractRun at hmem
    rcases foldl_dirs_key overwrite outDir _ _ _ hmem with h' | ⟨e, he, hp⟩
    · have hinit : (if pathExists (⟨[], [], 0⟩ : FsState) outDir
          then (⟨[], [], 0⟩ : FsState)
          else { files := [], dirs := addDirAll [] outDir, progress := 0 }).dirs
          = addDirAll [] outDir := rfl
      rw [hinit] at h'
      rcases mem_of_addDirAll _ _ _ h' with h'' | h''
      · cases h''
      · have := h''.length_le
        simp at this
    · rw [hcomp] at he
      rcases List.mem_map.mp he with ⟨f, hf, rfl⟩
      rw [hout f hf] at hp
      have h1 : (t.name :: dp) <+: (t.name :: f.1) := pre_cancel_left outDir _ _ hp
      obtain ⟨u, hu⟩ := h1
      rw [List.cons_append] at hu
      have h2 : dp ++ u = f.1 := (List.cons.injEq _ _ _ _ ▸ hu).2
      exact hempty f hf ⟨u, h2⟩

/-- Witness for C9: `docs/` holds one file `a.txt` and one empty directory
`empty/`; the archive has no directory entry, no entry named `docs/empty`,
and extraction does not create `out/docs/empty`. -/
theorem c9_no_directory_entries_witness :
    (∀ e ∈ compressDir ⟨"docs", [.dir [], .file ["a.txt"] [1], .dir ["empty"]]⟩
        (fun _ => false), e.isDir = false)
    ∧ compressNodes "docs"
        (([FsNode.dir [], .file ["a.txt"] [1], .dir ["empty"]].filter
          (fun n => (fsNodeFile? n).isSome))) (fun _ => false)
        = compressDir ⟨"docs", [.dir [], .file ["a.txt"] [1], .dir ["empty"]]⟩
            (fun _ => false)
    ∧ (∀ e ∈ compressDir ⟨"docs", [.dir [], .file ["a.txt"] [1], .dir ["empty"]]⟩
        (fun _ => false), e.name ≠ ["docs", "empty"])
    ∧ (["out", "docs", "empty"]
        ∉ (extractRun false ["out"] ⟨[], [], 0⟩
            (compressDir ⟨"docs", [.dir [], .file ["a.txt"] [1], .dir ["empty"]]⟩
              (fun _ => false))).dirs) :=
  c9_no_directory_entries ⟨"docs", [.dir [], .file ["a.txt"] [1], .dir ["empty"]]⟩
    (fun _ => false) false ["out"] ["empty"] (by decide) (by decide) (by decide)
    (by decide) (by decide)

end XXZip
